import Mathlib

/-!
Shallow embedding of the modular-arithmetic core (`procon/finite.rs`):
the prime modulus `P`, the binary-exponentiation routine `pow`, the
batch-inverse routine `inv_dp`, and the `Finite` residue type with its
arithmetic operations.  Rust's `%` on `i64` is truncated remainder, which
is `Int.tmod`; Rust's integer `/` truncates toward zero, which is
`Int.tdiv`.  All 64-bit values are modelled as unbounded `Int`; claim C8
separately accounts for the absence of 64-bit overflow via a checked
variant of every multiplication.
-/

namespace Procon

/-- The fixed prime modulus, `const P: i64 = 1_000_000_007`. -/
def P : Int := 1000000007

/-- Body of the `while n > 0` loop of `pow`.  Each iteration with `n > 0`
replaces `n` by `n.tdiv 2` (after `n -= 1` on odd `n`), so `n` strictly
decreases toward `0`; `fuel = n.toNat` therefore bounds the number of
iterations (for `n ≥ 1`, `n.tdiv 2 ≤ n - 1`), and when either `fuel` hits
`0` or the guard fails the loop result is the accumulator `y`. -/
def powLoop : Nat → Int → Int → Int → Int
  | 0, _, y, _ => y
  | fuel+1, x, y, n =>
    if 0 < n then
      if n.tmod 2 ≠ 0 then
        powLoop fuel ((x*x).tmod P) ((y*x).tmod P) ((n-1).tdiv 2)
      else
        powLoop fuel ((x*x).tmod P) y (n.tdiv 2)
    else y

/-- Embeds `pub fn pow(x: i64, n: i64) -> i64`: binary exponentiation.
`let (mut x, mut y, mut n) = (x % P, 1, n)` followed by the loop. -/
def pow (x n : Int) : Int := powLoop n.toNat (x.tmod P) 1 n

lemma P_pos : (0:Int) < P := by norm_num [P]

lemma two_le_P : (2:Int) ≤ P := by norm_num [P]

/-- Truncated remainder of a nonnegative value by `P` is the Euclidean one. -/
lemma tmod_P_of_nonneg {a : Int} (ha : 0 ≤ a) : a.tmod P = a % P :=
  Int.tmod_eq_emod ha (le_of_lt P_pos)

lemma emod_P_nonneg (a : Int) : 0 ≤ a % P :=
  Int.emod_nonneg a (ne_of_gt P_pos)

lemma emod_P_lt (a : Int) : a % P < P :=
  Int.emod_lt_of_pos a P_pos

/-- Powers commute with reduction of the base mod `P`. -/
lemma emod_pow_P (a : Int) (k : Nat) : ((a % P) ^ k) % P = (a ^ k) % P := by
  induction k with
  | zero => rfl
  | succ k ih =>
      rw [pow_succ, Int.mul_emod, Int.emod_emod_of_dvd a dvd_rfl, ih,
        ← Int.mul_emod, ← pow_succ]

/-- Invariant proof for the exponentiation loop: with a reduced base and
accumulator, the loop computes `(y * x ^ n) % P` whenever the fuel covers
the iteration count. -/
lemma powLoop_spec :
    ∀ (fuel : Nat) (x y n : Int), n.toNat ≤ fuel →
      0 ≤ x → x < P → 0 ≤ y → y < P →
      powLoop fuel x y n = (y * x ^ n.toNat) % P := by
  intro fuel
  induction fuel with
  | zero =>
      intro x y n hn hx hx' hy hy'
      have h0 : n.toNat = 0 := Nat.le_zero.mp hn
      simp [powLoop, h0, Int.emod_eq_of_lt hy hy']
  | succ fuel ih =>
      intro x y n hn hx hx' hy hy'
      by_cases hpos : 0 < n
      · have hn0 : 0 ≤ n := le_of_lt hpos
        have htm : n.tmod 2 = n % 2 := Int.tmod_eq_emod hn0 (by norm_num)
        by_cases hodd : n.tmod 2 ≠ 0
        · have hmod : n % 2 = 1 := by omega
          have hsub : (0:Int) ≤ n - 1 := by omega
          have htd : (n-1).tdiv 2 = (n-1) / 2 :=
            Int.tdiv_eq_ediv hsub (by norm_num)
          have hk : ((n-1)/2).toNat ≤ fuel := by omega
          have hx2 : 0 ≤ x * x := mul_nonneg hx hx
          have hyx : 0 ≤ y * x := mul_nonneg hy hx
          have step : powLoop (fuel+1) x y n
              = powLoop fuel ((x*x) % P) ((y*x) % P) ((n-1)/2) := by
            simp only [powLoop, if_pos hpos, if_pos hodd, htd,
              tmod_P_of_nonneg hx2, tmod_P_of_nonneg hyx]
          rw [step, ih _ _ _ hk (emod_P_nonneg _) (emod_P_lt _)
            (emod_P_nonneg _) (emod_P_lt _)]
          have hexp : n.toNat = 2 * ((n-1)/2).toNat + 1 := by omega
          rw [Int.mul_emod, Int.emod_emod_of_dvd _ dvd_rfl, emod_pow_P,
            ← Int.mul_emod, hexp]
          congr 1
          ring
        · push_neg at hodd
          have hmod : n % 2 = 0 := by omega
          have htd : n.tdiv 2 = n / 2 := Int.tdiv_eq_ediv hn0 (by norm_num)
          have hk : (n/2).toNat ≤ fuel := by omega
          have hx2 : 0 ≤ x * x := mul_nonneg hx hx
          have step : powLoop (fuel+1) x y n
              = powLoop fuel ((x*x) % P) y (n/2) := by
            simp only [powLoop, if_pos hpos, if_neg (not_not_intro hodd), htd,
              tmod_P_of_nonneg hx2]
          rw [step, ih _ _ _ hk (emod_P_nonneg _) (emod_P_lt _) hy hy']
          have hexp : n.toNat = 2 * ((n)/2).toNat := by omega
          rw [Int.mul_emod, emod_pow_P, ← Int.mul_emod, hexp]
          congr 1
          ring
      · have h0 : n.toNat = 0 := by omega
        simp [powLoop, if_neg hpos, h0, Int.emod_eq_of_lt hy hy']

/-- For a nonnegative base, `pow` returns the canonical residue of `x^n`. -/
lemma pow_eq_emod (x n : Int) (hx : 0 ≤ x) : pow x n = (x ^ n.toNat) % P := by
  have hxm : x.tmod P = x % P := tmod_P_of_nonneg hx
  have one_lt : (1:Int) < P := by norm_num [P]
  rw [pow, hxm, powLoop_spec n.toNat (x % P) 1 n le_rfl (emod_P_nonneg x)
    (emod_P_lt x) zero_le_one one_lt, one_mul, emod_pow_P]

/-- The step-by-step product from `test_pow_small`:
`(0..n).fold(1, |acc, _| (acc * x) % P)`. -/
def powNaive (x : Int) (k : Nat) : Int :=
  (List.range k).foldl (fun y _ => (y * x).tmod P) 1

lemma powNaive_eq_emod (x : Int) (hx : 0 ≤ x) :
    ∀ k : Nat, powNaive x k = (x ^ k) % P := by
  intro k
  induction k with
  | zero => simp [powNaive, P]
  | succ k ih =>
      have hnn : 0 ≤ powNaive x k := by
        rw [ih]; exact emod_P_nonneg _
      rw [powNaive, List.range_succ, List.foldl_append]
      show ((powNaive x k) * x).tmod P = (x ^ (k+1)) % P
      rw [tmod_P_of_nonneg (mul_nonneg hnn hx), ih, Int.mul_emod,
        Int.emod_emod_of_dvd _ dvd_rfl, ← Int.mul_emod, ← pow_succ]

/-- C1 (counterexample): at `x = -1`, `n = 1` the base is *not* brought
into `[0, P)` by the initial `x % P` (Rust's truncated remainder keeps the
sign), and the returned value `-1` differs from the canonical residue
`(-1)^1 mod P = 1000000006`. -/
theorem pow_neg_base_not_canonical :
    pow (-1) 1 = -1 ∧ ((-1 : Int) ^ (1 : Int).toNat) % P = 1000000006 := by
  constructor
  · decide
  · decide

/-- C1 (amended): for every nonnegative base `x` and nonnegative exponent
`n`, `pow x n` is the canonical residue `x^n mod P`, and equals the
step-by-step product of `x` taken `n` times with each intermediate product
reduced mod `P`. -/
theorem pow_correct (x n : Int) (hx : 0 ≤ x) (hn : 0 ≤ n) :
    pow x n = (x ^ n.toNat) % P ∧ pow x n = powNaive x n.toNat := by
  refine ⟨pow_eq_emod x n hx, ?_⟩
  rw [pow_eq_emod x n hx, powNaive_eq_emod x hx]

/-- C1 witness: `pow 5 6 = 5^6 mod P = 15625`, matching the naive fold. -/
theorem pow_correct_witness :
    pow 5 6 = ((5:Int) ^ (6:Int).toNat) % P ∧ pow 5 6 = powNaive 5 (6:Int).toNat :=
  pow_correct 5 6 (by norm_num) (by norm_num)

/-- C6: the exponent `0` returns `1` for every base, including `0`
(the `0^0 = 1` convention): with `n = 0` the loop guard `n > 0` fails at
once and the accumulator `1` is returned. -/
theorem pow_exp_zero (x : Int) : pow x 0 = 1 := rfl

/-- C10: a negative exponent makes the loop guard `n > 0` fail at once, so
`pow` silently returns `1` exactly as for exponent `0`; the function is
total over all signed exponents. -/
theorem pow_neg_exp (x n : Int) (hn : n < 0) : pow x n = 1 := by
  have h0 : n.toNat = 0 := by omega
  rw [pow, h0]
  rfl

/-- C10 witness: `pow 5 (-3) = 1`. -/
theorem pow_neg_exp_witness : pow 5 (-3) = 1 :=
  pow_neg_exp 5 (-3) (by norm_num)

/-! ## The `Finite` residue type -/

/-- Embeds `struct Finite(i64)`: an element of the finite field. -/
structure Finite where
  val : Int
deriving DecidableEq

lemma Finite.val_inj {a b : Finite} (h : a.val = b.val) : a = b := by
  cases a; cases b; cases h; rfl

/-- Embeds `impl From<i64> for Finite`: `Finite((value % P + P) % P)`. -/
def Finite.ofInt (v : Int) : Finite := ⟨((v.tmod P) + P).tmod P⟩

/-- Embeds `Finite::pow`: `pow(self.0, e).into()`. -/
def Finite.pow (a : Finite) (e : Int) : Finite := Finite.ofInt (Procon.pow a.val e)

/-- Embeds `impl Add<Finite> for Finite`: `Finite::from(self.0.add(other.0))`. -/
def Finite.add (a b : Finite) : Finite := Finite.ofInt (a.val + b.val)

/-- Embeds `impl Sub<Finite> for Finite`: `Finite::from(self.0.sub(other.0))`. -/
def Finite.sub (a b : Finite) : Finite := Finite.ofInt (a.val - b.val)

/-- Embeds `impl Mul<Finite> for Finite`: `Finite::from(self.0.mul(other.0))`. -/
def Finite.mul (a b : Finite) : Finite := Finite.ofInt (a.val * b.val)

/-- Embeds `impl Div<Finite> for Finite`: `self * other.pow(P - 2)`. -/
def Finite.div (a b : Finite) : Finite := a.mul (b.pow (P - 2))

/-- Embeds `impl Add<i64> for Finite`: `self.add(Finite::from(other))`. -/
def Finite.addInt (a : Finite) (w : Int) : Finite := a.add (Finite.ofInt w)

/-- Embeds `impl Sub<i64> for Finite`. -/
def Finite.subInt (a : Finite) (w : Int) : Finite := a.sub (Finite.ofInt w)

/-- Embeds `impl Mul<i64> for Finite`. -/
def Finite.mulInt (a : Finite) (w : Int) : Finite := a.mul (Finite.ofInt w)

/-- Embeds `impl Div<i64> for Finite`. -/
def Finite.divInt (a : Finite) (w : Int) : Finite := a.div (Finite.ofInt w)

/-- Embeds `impl AddAssign<Finite> for Finite`: `*self = self.add(other)`. -/
def Finite.addAssign (a b : Finite) : Finite := a.add b

/-- Embeds `impl SubAssign<Finite> for Finite`. -/
def Finite.subAssign (a b : Finite) : Finite := a.sub b

/-- Embeds `impl MulAssign<Finite> for Finite`. -/
def Finite.mulAssign (a b : Finite) : Finite := a.mul b

/-- Embeds `impl DivAssign<Finite> for Finite`. -/
def Finite.divAssign (a b : Finite) : Finite := a.div b

/-- Embeds `impl AddAssign<i64> for Finite`: `*self = self.add(other)`. -/
def Finite.addAssignInt (a : Finite) (w : Int) : Finite := a.addInt w

/-- Embeds `impl SubAssign<i64> for Finite`. -/
def Finite.subAssignInt (a : Finite) (w : Int) : Finite := a.subInt w

/-- Embeds `impl MulAssign<i64> for Finite`. -/
def Finite.mulAssignInt (a : Finite) (w : Int) : Finite := a.mulInt w

/-- Embeds `impl DivAssign<i64> for Finite`. -/
def Finite.divAssignInt (a : Finite) (w : Int) : Finite := a.divInt w

/-- The documented invariant on a stored residue: it lies in `[0, P)`. -/
def Finite.isNormal (a : Finite) : Prop := 0 ≤ a.val ∧ a.val < P

instance (a : Finite) : Decidable a.isNormal :=
  inferInstanceAs (Decidable (0 ≤ a.val ∧ a.val < P))

/-- Truncated remainder negates with the dividend. -/
lemma tmod_neg_dividend (a b : Int) : (-a).tmod b = -(a.tmod b) := by
  rw [Int.tmod_def, Int.tmod_def, Int.neg_tdiv]
  ring

/-- Both-sided bound on truncated remainder by `P`. -/
lemma tmod_P_bounds (a : Int) : -P < a.tmod P ∧ a.tmod P < P := by
  refine ⟨?_, Int.tmod_lt_of_pos a P_pos⟩
  rcases le_or_lt 0 a with h | h
  · have h1 : 0 ≤ a.tmod P := Int.tmod_nonneg P h
    have := P_pos
    omega
  · have h1 : (-a).tmod P < P := Int.tmod_lt_of_pos (-a) P_pos
    have h2 : a.tmod P = -((-a).tmod P) := by
      rw [tmod_neg_dividend, neg_neg]
    omega

/-- Truncated remainder by `P` is congruent to the argument mod `P`. -/
lemma tmod_P_emod (v : Int) : v.tmod P % P = v % P := by
  rw [Int.tmod_def]
  have h : v - P * (v.tdiv P) = v + P * (-(v.tdiv P)) := by ring
  rw [h, Int.add_mul_emod_self_left]

/-- The two-pass normalization `((v % P) + P) % P` of `Finite::from`
computes exactly the canonical (Euclidean) residue of `v`. -/
lemma ofInt_val (v : Int) : (Finite.ofInt v).val = v % P := by
  show ((v.tmod P) + P).tmod P = v % P
  have hb := tmod_P_bounds v
  have hnn : 0 ≤ v.tmod P + P := by omega
  have h1 : v.tmod P + P = v.tmod P + P * 1 := by ring
  rw [tmod_P_of_nonneg hnn, h1, Int.add_mul_emod_self_left, tmod_P_emod]

lemma isNormal_ofInt (v : Int) : (Finite.ofInt v).isNormal := by
  constructor
  · rw [ofInt_val]; exact emod_P_nonneg v
  · rw [ofInt_val]; exact emod_P_lt v

lemma add_val (a b : Finite) : (a.add b).val = (a.val + b.val) % P := ofInt_val _

lemma sub_val (a b : Finite) : (a.sub b).val = (a.val - b.val) % P := ofInt_val _

lemma mul_val (a b : Finite) : (a.mul b).val = (a.val * b.val) % P := ofInt_val _

lemma pow_val (a : Finite) (e : Int) :
    (a.pow e).val = (Procon.pow a.val e) % P := ofInt_val _

/-- C4: every construction and every operation (binary, raw-integer and
compound-assign forms alike) yields a stored value in `[0, P)`. -/
theorem finite_always_normalized :
    (∀ v : Int, (Finite.ofInt v).isNormal) ∧
    (∀ a b : Finite, (a.add b).isNormal ∧ (a.sub b).isNormal ∧
      (a.mul b).isNormal ∧ (a.div b).isNormal ∧
      (a.addAssign b).isNormal ∧ (a.subAssign b).isNormal ∧
      (a.mulAssign b).isNormal ∧ (a.divAssign b).isNormal) ∧
    (∀ (a : Finite) (w : Int), (a.addInt w).isNormal ∧ (a.subInt w).isNormal ∧
      (a.mulInt w).isNormal ∧ (a.divInt w).isNormal ∧
      (a.addAssignInt w).isNormal ∧ (a.subAssignInt w).isNormal ∧
      (a.mulAssignInt w).isNormal ∧ (a.divAssignInt w).isNormal) := by
  refine ⟨fun v => isNormal_ofInt v, fun a b => ?_, fun a w => ?_⟩
  · exact ⟨isNormal_ofInt _, isNormal_ofInt _, isNormal_ofInt _, isNormal_ofInt _,
      isNormal_ofInt _, isNormal_ofInt _, isNormal_ofInt _, isNormal_ofInt _⟩
  · exact ⟨isNormal_ofInt _, isNormal_ofInt _, isNormal_ofInt _, isNormal_ofInt _,
      isNormal_ofInt _, isNormal_ofInt _, isNormal_ofInt _, isNormal_ofInt _⟩

/-- C5: construction from integers is additive:
`Finite::from(v) + Finite::from(w) = Finite::from(v + w)`. -/
theorem ofInt_add_hom (v w : Int) :
    (Finite.ofInt v).add (Finite.ofInt w) = Finite.ofInt (v + w) := by
  apply Finite.val_inj
  rw [add_val, ofInt_val, ofInt_val, ofInt_val, ← Int.add_emod]

/-- Evaluation fact `pow(0, P - 2) = 0`: the exponent is positive, so the zero base wipes
the accumulator at the first odd step and the result is `0`. -/
lemma pow_zero_base : pow 0 (P - 2) = 0 := by
  rw [pow_eq_emod 0 (P - 2) le_rfl]
  have h2 : (P:Int) - 2 = (1000000005:Int) := by norm_num [P]
  rw [h2]
  norm_num

/-- C7: dividing any `Finite` by a zero residue raises no error and
silently returns the zero residue, because `pow 0 (P-2) = 0`; the dividend
is irrelevant. -/
theorem div_by_zero_residue :
    pow 0 (P - 2) = 0 ∧
    ∀ (a b : Finite), b.val = 0 → a.div b = Finite.ofInt 0 := by
  refine ⟨pow_zero_base, fun a b hb => ?_⟩
  apply Finite.val_inj
  show (a.mul (b.pow (P - 2))).val = (Finite.ofInt 0).val
  rw [mul_val, pow_val, hb, pow_zero_base, ofInt_val]
  norm_num

/-- C7 witness: `Finite::from(5) / Finite::from(0) = Finite::from(0)`. -/
theorem div_by_zero_residue_witness :
    (Finite.ofInt 5).div (Finite.ofInt 0) = Finite.ofInt 0 :=
  div_by_zero_residue.2 (Finite.ofInt 5) (Finite.ofInt 0) (by decide)

/-! ## Absence of 64-bit overflow (C8) -/

/-- Smallest `i64` value. -/
def i64Min : Int := -(2^63)

/-- Largest `i64` value. -/
def i64Max : Int := 2^63 - 1

/-- Multiplication that fails if the exact product leaves the `i64` range. -/
def checkedMul (a b : Int) : Option Int :=
  if i64Min ≤ a * b ∧ a * b ≤ i64Max then some (a * b) else none

/-- Variant of `powLoop` with every multiplication checked against the `i64` range. -/
def powLoopChecked : Nat → Int → Int → Int → Option Int
  | 0, _, y, _ => some y
  | fuel+1, x, y, n =>
    if 0 < n then
      if n.tmod 2 ≠ 0 then
        (checkedMul y x).bind (fun yx =>
          (checkedMul x x).bind (fun xx =>
            powLoopChecked fuel (xx.tmod P) (yx.tmod P) ((n-1).tdiv 2)))
      else
        (checkedMul x x).bind (fun xx =>
          powLoopChecked fuel (xx.tmod P) y (n.tdiv 2))
    else some y

/-- Variant of `pow` with checked multiplications. -/
def powChecked (x n : Int) : Option Int := powLoopChecked n.toNat (x.tmod P) 1 n

/-- Variant of `Finite` multiplication with the product checked against `i64`. -/
def Finite.mulChecked (a b : Finite) : Option Finite :=
  (checkedMul a.val b.val).map Finite.ofInt

/-- A product of two factors of absolute value below `P` stays inside the
`i64` range. -/
lemma checkedMul_of_bounds {a b : Int} (ha : -P < a) (ha' : a < P)
    (hb : -P < b) (hb' : b < P) : checkedMul a b = some (a * b) := by
  have haa : |a| ≤ P - 1 := by rw [abs_le]; omega
  have hbb : |b| ≤ P - 1 := by rw [abs_le]; omega
  have habs : |a * b| ≤ (P - 1) * (P - 1) := by
    rw [abs_mul]
    exact mul_le_mul haa hbb (abs_nonneg b) (by norm_num [P])
  rw [abs_le] at habs
  have hbound : ((P:Int) - 1) * (P - 1) ≤ i64Max ∧ i64Min ≤ -(((P:Int) - 1) * (P - 1)) := by
    norm_num [P, i64Min, i64Max]
  have h1 : i64Min ≤ a * b := le_trans hbound.2 habs.1
  have h2 : a * b ≤ i64Max := le_trans habs.2 hbound.1
  rw [checkedMul, if_pos ⟨h1, h2⟩]

/-- The checked exponentiation loop never overflows when base and
accumulator are reduced. -/
lemma powLoopChecked_eq :
    ∀ (fuel : Nat) (x y n : Int), -P < x → x < P → -P < y → y < P →
      powLoopChecked fuel x y n = some (powLoop fuel x y n) := by
  intro fuel
  induction fuel with
  | zero => intro x y n _ _ _ _; rfl
  | succ fuel ih =>
      intro x y n hx hx' hy hy'
      have hc2 := checkedMul_of_bounds hx hx' hx hx'
      by_cases hpos : 0 < n
      · by_cases hodd : n.tmod 2 ≠ 0
        · have hc1 := checkedMul_of_bounds hy hy' hx hx'
          simp only [powLoopChecked, powLoop, if_pos hpos, if_pos hodd,
            hc1, hc2, Option.some_bind]
          exact ih _ _ _ (tmod_P_bounds _).1 (tmod_P_bounds _).2
            (tmod_P_bounds _).1 (tmod_P_bounds _).2
        · simp only [powLoopChecked, powLoop, if_pos hpos, if_neg hodd,
            hc2, Option.some_bind]
          exact ih _ _ _ (tmod_P_bounds _).1 (tmod_P_bounds _).2 hy hy'
      · simp only [powLoopChecked, powLoop, if_neg hpos]

/-- C8: no multiplication in `pow` or in `Finite` multiplication can
overflow a signed 64-bit integer: the initial reduction and the reduction
after every multiply keep both factors of every product of absolute value
below `P < 2^30`, so the checked computations succeed and return exactly
the unchecked ones. -/
theorem no_i64_overflow :
    (∀ x n : Int, powChecked x n = some (pow x n)) ∧
    (∀ a b : Finite, a.isNormal → b.isNormal →
      a.mulChecked b = some (a.mul b)) := by
  constructor
  · intro x n
    exact powLoopChecked_eq n.toNat (x.tmod P) 1 n
      (tmod_P_bounds x).1 (tmod_P_bounds x).2
      (by norm_num [P]) (by norm_num [P])
  · intro a b ha hb
    have hP := P_pos
    obtain ⟨ha1, ha2⟩ := ha
    obtain ⟨hb1, hb2⟩ := hb
    show (checkedMul a.val b.val).map Finite.ofInt = some (a.mul b)
    rw [checkedMul_of_bounds (by omega) ha2 (by omega) hb2]
    rfl

/-- C8 witness: the checked product of `Finite::from(3)` and
`Finite::from(5)` succeeds with the unchecked result. -/
theorem no_i64_overflow_witness :
    (Finite.ofInt 3).mulChecked (Finite.ofInt 5)
      = some ((Finite.ofInt 3).mul (Finite.ofInt 5)) :=
  no_i64_overflow.2 (Finite.ofInt 3) (Finite.ofInt 5) (by decide) (by decide)

/-! ## Division is multiplication by the Fermat inverse (C3) -/

/-- Balanced trial division: `okRange fuel d k` checks that none of the
`k` odd candidates `d, d+2, ..., d+2(k-1)` divides `1000000007`, splitting
the range in half at each level so that kernel evaluation stays shallow. -/
def okRange : Nat → Nat → Nat → Bool
  | 0, _, _ => false
  | _+1, _, 0 => true
  | _+1, d, 1 => if 1000000007 % d = 0 then false else true
  | fuel+1, d, k => okRange fuel d (k/2) && okRange fuel (d + 2*(k/2)) (k - k/2)

lemma okRange_spec : ∀ (fuel d k : Nat), okRange fuel d k = true →
    ∀ j, j < k → 1000000007 % (d + 2*j) ≠ 0 := by
  intro fuel
  induction fuel with
  | zero => intro d k h; simp [okRange] at h
  | succ fuel ih =>
      intro d k h j hj
      rcases k with _ | _ | k
      · omega
      · have hj0 : j = 0 := by omega
        subst hj0
        simp only [okRange] at h
        split at h
        · exact absurd h (by simp)
        · simpa using (by assumption)
      · simp only [okRange, Bool.and_eq_true] at h
        rcases Nat.lt_or_ge j ((k+2)/2) with hsmall | hbig
        · exact ih d ((k+2)/2) h.1 j hsmall
        · have hrec := ih (d + 2*((k+2)/2)) ((k+2) - (k+2)/2) h.2 (j - (k+2)/2)
            (by omega)
          have harith : d + 2*((k+2)/2) + 2*(j - (k+2)/2) = d + 2*j := by omega
          rwa [harith] at hrec

set_option maxHeartbeats 8000000 in
/-- Primality of the modulus, certified by trial division up to
`sqrt 1000000007 < 31623`: even candidates are excluded by parity and the
odd ones by `okRange`. -/
lemma prime_P_nat : Nat.Prime 1000000007 := by
  have hok : okRange 20 3 15812 = true := by decide
  rw [Nat.prime_def_le_sqrt]
  refine ⟨by norm_num, ?_⟩
  intro m hm2 hmsqrt
  have hmm : m * m ≤ 1000000007 := Nat.le_sqrt.mp hmsqrt
  have hm_le : m ≤ 31622 := by
    by_contra hgt
    push_neg at hgt
    have h2 : 31623 * 31623 ≤ m * m := Nat.mul_le_mul (by omega) (by omega)
    have h3 := le_trans h2 hmm
    norm_num at h3
  intro hdvd
  rcases Nat.even_or_odd m with he | ho
  · obtain ⟨t, ht⟩ := he
    have h2 : (2:ℕ) ∣ 1000000007 := dvd_trans ⟨t, by omega⟩ hdvd
    norm_num at h2
  · obtain ⟨t, ht⟩ := ho
    have hmod : 1000000007 % m ≠ 0 := by
      have hj := okRange_spec 20 3 15812 hok ((m - 3)/2) (by omega)
      have harith : 3 + 2*((m-3)/2) = m := by omega
      rwa [harith] at hj
    exact hmod (Nat.mod_eq_zero_of_dvd hdvd)

instance : Fact (Nat.Prime 1000000007) := ⟨prime_P_nat⟩

/-- Fermat's little theorem at the modulus `P`, in `Int` form. -/
lemma fermat_P (b : Int) (hb0 : 0 < b) (hbP : b < P) :
    (b ^ 1000000006) % P = 1 := by
  have hzero : ((b : ZMod 1000000007)) ≠ 0 := by
    rw [Ne, ZMod.intCast_zmod_eq_zero_iff_dvd]
    intro hdvd
    have hle : ((1000000007:Nat):Int) ≤ b := Int.le_of_dvd hb0 hdvd
    rw [P] at hbP
    push_cast at hle
    omega
  have hf := ZMod.pow_card_sub_one_eq_one hzero
  have hf' : ((b : ZMod 1000000007)) ^ 1000000006 = 1 := by
    norm_num at hf
    exact hf
  have hcast : ((b ^ 1000000006 : Int) : ZMod 1000000007)
      = ((1 : Int) : ZMod 1000000007) := by
    push_cast
    exact hf'
  rw [ZMod.intCast_eq_intCast_iff'] at hcast
  push_cast at hcast
  rw [P]
  exact hcast

/-- Dropping an inner reduction of the left factor of a reduced product. -/
lemma emod_mul_emod_left (x y : Int) : (x % P * y) % P = (x * y) % P := by
  rw [Int.mul_emod, Int.emod_emod_of_dvd _ dvd_rfl, ← Int.mul_emod]

/-- Dropping an inner reduction of the right factor of a reduced product. -/
lemma emod_mul_emod_right (x y : Int) : (x * (y % P)) % P = (x * y) % P := by
  rw [Int.mul_emod, Int.emod_emod_of_dvd _ dvd_rfl, ← Int.mul_emod]

/-- The value `pow b (P-2)` is a right inverse of `b` modulo `P` for `0 < b < P`. -/
lemma pow_inverse_mul (b : Int) (hb0 : 0 < b) (hbP : b < P) :
    (pow b (P - 2) * b) % P = 1 := by
  rw [pow_eq_emod b (P - 2) (le_of_lt hb0)]
  have h2 : (P:Int) - 2 = (1000000005:Int) := by norm_num [P]
  rw [h2]
  have ht : ((1000000005:Int)).toNat = 1000000005 := rfl
  rw [ht, Int.mul_emod, Int.emod_emod_of_dvd _ dvd_rfl, ← Int.mul_emod,
    ← pow_succ]
  have h3 : (1000000005 : Nat) + 1 = 1000000006 := rfl
  rw [h3]
  exact fermat_P b hb0 hbP

/-- C3: for normalized residues with a nonzero divisor,
`(a / b) * b = a`, where division multiplies by `pow b (P-2)`. -/
theorem finite_div_mul_cancel (a b : Finite) (ha : a.isNormal)
    (hb : b.isNormal) (hb0 : b.val ≠ 0) : (a.div b).mul b = a := by
  apply Finite.val_inj
  have hbpos : 0 < b.val := lt_of_le_of_ne hb.1 (Ne.symm hb0)
  have hkey : (pow b.val (P - 2) * b.val) % P = 1 :=
    pow_inverse_mul b.val hbpos hb.2
  show ((a.div b).mul b).val = a.val
  have hdv : (a.div b).val = (a.val * (pow b.val (P-2) % P)) % P := by
    show (a.mul (b.pow (P-2))).val = _
    rw [mul_val, pow_val]
  rw [mul_val, hdv, emod_mul_emod_right, emod_mul_emod_left, mul_assoc,
    Int.mul_emod a.val (pow b.val (P-2) * b.val), hkey, mul_one,
    Int.emod_emod_of_dvd _ dvd_rfl, Int.emod_eq_of_lt ha.1 ha.2]

/-- C3 witness: `(Finite::from(2) / Finite::from(11)) * Finite::from(11)
= Finite::from(2)` (the tested instance). -/
theorem finite_div_mul_cancel_witness :
    ((Finite.ofInt 2).div (Finite.ofInt 11)).mul (Finite.ofInt 11)
      = Finite.ofInt 2 :=
  finite_div_mul_cancel (Finite.ofInt 2) (Finite.ofInt 11)
    (by decide) (by decide) (by decide)

/-! ## Batch inverses: `inv_dp` (C2, C9) -/

/-- One iteration of the `for i in 2..n` loop of `inv_dp`:
`z = P - dp[(P % i) as usize]; z %= P; z *= P / i; z %= P; dp[i] = z`. -/
def invDpStep (i : Nat) (dp : List Int) : List Int :=
  dp.set i
    (((P - dp.getD (P.tmod (i:Int)).toNat 0).tmod P * (P.tdiv (i:Int))).tmod P)

/-- The loop itself, recursing on the remaining iteration count:
`invDpLoop k i dp` runs the body for indices `i, i+1, ..., i+k-1`. -/
def invDpLoop : Nat → Nat → List Int → List Int
  | 0, _, dp => dp
  | k+1, i, dp => invDpLoop k (i+1) (invDpStep i dp)

/-- Embeds `pub fn inv_dp(n: usize) -> Vec<i64>`:
`let mut dp = vec![0; n]; if n >= 2 { dp[1] = 1; for i in 2..n { ... } } dp`. -/
def inv_dp (n : Nat) : List Int :=
  if 2 ≤ n then invDpLoop (n - 2) 2 ((List.replicate n (0:Int)).set 1 1)
  else List.replicate n (0:Int)

lemma getD_set_self {l : List Int} {i : Nat} {a : Int} (h : i < l.length) :
    (l.set i a).getD i 0 = a := by
  simp [List.getD_eq_getElem?_getD, List.getElem?_set_self h]

lemma getD_set_ne {l : List Int} {i j : Nat} {a : Int} (h : i ≠ j) :
    (l.set i a).getD j 0 = l.getD j 0 := by
  simp [List.getD_eq_getElem?_getD, List.getElem?_set_ne h]

lemma getD_replicate_zero {n j : Nat} : (List.replicate n (0:Int)).getD j 0 = 0 := by
  rcases lt_or_ge j n with h | h
  · simp [List.getD_eq_getElem?_getD, List.getElem?_replicate, h]
  · simp [List.getD_eq_getElem?_getD, List.getElem?_replicate,
      Nat.not_lt.mpr h]

lemma length_invDpStep (i : Nat) (dp : List Int) :
    (invDpStep i dp).length = dp.length := List.length_set ..

lemma length_invDpLoop :
    ∀ (k i : Nat) (dp : List Int), (invDpLoop k i dp).length = dp.length := by
  intro k
  induction k with
  | zero => intro i dp; rfl
  | succ k ih =>
      intro i dp
      rw [invDpLoop, ih, length_invDpStep]

/-- C2/C9 helper: the loop never touches indices below its start index. -/
lemma invDpLoop_getD_lt :
    ∀ (k i : Nat) (dp : List Int) (j : Nat), j < i →
      (invDpLoop k i dp).getD j 0 = dp.getD j 0 := by
  intro k
  induction k with
  | zero => intro i dp j _; rfl
  | succ k ih =>
      intro i dp j hj
      rw [invDpLoop, ih (i+1) _ j (by omega), invDpStep,
        getD_set_ne (by omega)]

/-- The length of `inv_dp n` is `n`. -/
lemma length_inv_dp (n : Nat) : (inv_dp n).length = n := by
  rw [inv_dp]
  split
  · rw [length_invDpLoop, List.length_set, List.length_replicate]
  · rw [List.length_replicate]

/-- The correctness property of one table entry: normalized and a modular
inverse of its index. -/
def GoodAt (dp : List Int) (j : Nat) : Prop :=
  0 ≤ dp.getD j 0 ∧ dp.getD j 0 < P ∧ (dp.getD j 0 * (j:Int)) % P = 1

/-- A divisor `i` of `P` with `2 ≤ i` and `i < P` contradicts primality. -/
lemma no_middle_divisor {i : Nat} (h2 : 2 ≤ i) (hiP : (i:Int) < P)
    (hdvd : (i:Int) ∣ P) : False := by
  have hP' : P = ((1000000007:Nat):Int) := by norm_num [P]
  rw [hP'] at hdvd hiP
  have hdvd' : i ∣ 1000000007 := by exact_mod_cast hdvd
  have hlt : i < 1000000007 := by exact_mod_cast hiP
  have hp : Nat.Prime 1000000007 := Fact.out
  rcases hp.eq_one_or_self_of_dvd i hdvd' with h | h <;> omega

/-- Invariant preservation through the whole loop: if all entries below
the current index (and below `P`) are correct inverses, they remain so and
every newly written entry below `P` becomes one. -/
lemma invDpLoop_spec :
    ∀ (k i : Nat) (dp : List Int), 2 ≤ i → i + k ≤ dp.length →
      (∀ j, 1 ≤ j → j < i → (j:Int) < P → GoodAt dp j) →
      ∀ j, 1 ≤ j → j < i + k → (j:Int) < P → GoodAt (invDpLoop k i dp) j := by
  intro k
  induction k with
  | zero =>
      intro i dp _ _ hinv j hj1 hj2 hjP
      exact hinv j hj1 (by omega) hjP
  | succ k ih =>
      intro i dp hi2 hlen hinv j hj1 hj2 hjP
      rw [invDpLoop]
      have hilen : i < dp.length := by omega
      have hlen' : (i+1) + k ≤ (invDpStep i dp).length := by
        rw [length_invDpStep]; omega
      refine ih (i+1) (invDpStep i dp) (by omega) hlen' ?_ j hj1 (by omega) hjP
      intro j' hj'1 hj'2 hj'P
      rcases Nat.lt_or_ge j' i with hj'i | hj'i
      · have hne : i ≠ j' := by omega
        have : (invDpStep i dp).getD j' 0 = dp.getD j' 0 := by
          rw [invDpStep, getD_set_ne hne]
        unfold GoodAt
        rw [this]
        exact hinv j' hj'1 hj'i hj'P
      · -- `j' = i`: the freshly written entry.
        have hji : j' = i := by omega
        subst hji
        -- the remainder index `r`
        have hi0 : (0:Int) ≤ (j':Int) := by positivity
        have hipos : (0:Int) < (j':Int) := by exact_mod_cast Nat.lt_of_lt_of_le Nat.zero_lt_two hi2
        have htm : P.tmod (j':Int) = P % (j':Int) :=
          Int.tmod_eq_emod (le_of_lt P_pos) hi0
        have hr0 : 0 ≤ P % (j':Int) := Int.emod_nonneg P (by omega)
        have hrlt : P % (j':Int) < (j':Int) := Int.emod_lt_of_pos P hipos
        set r : Nat := (P.tmod (j':Int)).toNat with hrdef
        have hrcast : (r:Int) = P % (j':Int) := by
          rw [hrdef, htm, Int.toNat_of_nonneg hr0]
        have hrne : P % (j':Int) ≠ 0 := by
          intro h0
          exact no_middle_divisor hi2 hj'P (Int.dvd_of_emod_eq_zero h0)
        have hr1 : 1 ≤ r := by omega
        have hri : r < j' := by omega
        have hrP : (r:Int) < P := by omega
        have hgood := hinv r hr1 hri hrP
        obtain ⟨hv0, hvP, hvinv⟩ := hgood
        set v : Int := dp.getD r 0 with hvdef
        -- the written value `z`
        have hPv0 : 0 ≤ P - v := by omega
        have htm1 : (P - v).tmod P = (P - v) % P :=
          Int.tmod_eq_emod hPv0 (le_of_lt P_pos)
        have hq : P.tdiv (j':Int) = P / (j':Int) :=
          Int.tdiv_eq_ediv (le_of_lt P_pos) hi0
        have hq0 : 0 ≤ P / (j':Int) := Int.ediv_nonneg (le_of_lt P_pos) hi0
        have hz0 : 0 ≤ (P - v) % P * (P / (j':Int)) :=
          mul_nonneg (Int.emod_nonneg _ (ne_of_gt P_pos)) hq0
        have hzval : (invDpStep j' dp).getD j' 0
            = ((P - v) % P * (P / (j':Int))) % P := by
          rw [invDpStep, getD_set_self hilen, ← hvdef, htm1, hq,
            Int.tmod_eq_emod hz0 (le_of_lt P_pos)]
        refine ⟨?_, ?_, ?_⟩
        · rw [hzval]; exact Int.emod_nonneg _ (ne_of_gt P_pos)
        · rw [hzval]; exact Int.emod_lt_of_pos _ P_pos
        · rw [hzval, emod_mul_emod_left, mul_assoc, emod_mul_emod_left]
          have hqi : P / (j':Int) * (j':Int) = P - P % (j':Int) := by
            have := Int.emod_add_ediv P (j':Int)
            linarith [this]
          rw [hqi, ← hrcast]
          have hexpand : (P - v) * (P - (r:Int))
              = v * (r:Int) + P * (P - (r:Int) - v) := by ring
          rw [hexpand, Int.add_mul_emod_self_left, hvinv]

/-- C2 (amended): for every `n` and index `i` with `1 ≤ i < n` *and*
`i < P`, entry `i` of `inv_dp n` is normalized into `[0,P)` and is the
modular inverse of `i`.  (For `i ≥ P` no inverse exists and the table
holds junk, see the counterexample.) -/
theorem inv_dp_correct (n i : Nat) (h1 : 1 ≤ i) (h2 : i < n)
    (h3 : (i:Int) < P) :
    0 ≤ (inv_dp n).getD i 0 ∧ (inv_dp n).getD i 0 < P ∧
      ((inv_dp n).getD i 0 * (i:Int)) % P = 1 := by
  have hn2 : 2 ≤ n := by omega
  have hstep : inv_dp n = invDpLoop (n - 2) 2 ((List.replicate n (0:Int)).set 1 1) := by
    rw [inv_dp, if_pos hn2]
  have hlen : 2 + (n - 2) ≤ ((List.replicate n (0:Int)).set 1 1).length := by
    rw [List.length_set, List.length_replicate]; omega
  have hbase : ∀ j : Nat, 1 ≤ j → j < 2 → (j:Int) < P →
      GoodAt ((List.replicate n (0:Int)).set 1 1) j := by
    intro j hj1 hj2 _
    have hj : j = 1 := by omega
    subst hj
    have h1n : 1 < (List.replicate n (0:Int)).length := by
      rw [List.length_replicate]; omega
    refine ⟨?_, ?_, ?_⟩ <;> rw [getD_set_self h1n]
    · norm_num
    · norm_num [P]
    · norm_num [P]
  have := invDpLoop_spec (n - 2) 2 ((List.replicate n (0:Int)).set 1 1)
    (le_refl 2) hlen hbase i h1 (by omega) h3
  rw [hstep]
  exact this

/-- C2 witness: entry `2` of `inv_dp 5` is the inverse of `2` mod `P`. -/
theorem inv_dp_correct_witness :
    0 ≤ (inv_dp 5).getD 2 0 ∧ (inv_dp 5).getD 2 0 < P ∧
      ((inv_dp 5).getD 2 0 * ((2:Nat):Int)) % P = 1 :=
  inv_dp_correct 5 2 (by norm_num) (by norm_num) (by norm_num [P])

/-- C2 (counterexample): the contract quantified over *every* `n` fails
once `n` exceeds `P`: at index `i = P = 1000000007` (a valid index of
`inv_dp 1000000008`, whose length is `1000000008`), `result[i] * i` is a
multiple of `P`, hence `≡ 0`, never `1`. -/
theorem inv_dp_beyond_P_counterexample :
    (inv_dp 1000000008).length = 1000000008 ∧
    ((inv_dp 1000000008).getD 1000000007 0 * ((1000000007:Nat):Int)) % P ≠ 1 := by
  refine ⟨length_inv_dp 1000000008, ?_⟩
  have hP : ((1000000007:Nat):Int) = P := by norm_num [P]
  rw [hP, Int.mul_emod_left]
  norm_num

/-- C9: for `n < 2` the returned table is all zeros of length `n`;
entry `0` is always zero; and for `n ≥ 2` entry `1` is `1`. -/
theorem inv_dp_sentinels (n : Nat) :
    (n < 2 → inv_dp n = List.replicate n 0) ∧
    (inv_dp n).getD 0 0 = 0 ∧
    (2 ≤ n → (inv_dp n).getD 1 0 = 1) := by
  refine ⟨?_, ?_, ?_⟩
  · intro h
    rw [inv_dp, if_neg (by omega)]
  · rcases Nat.lt_or_ge n 2 with h | h
    · rw [inv_dp, if_neg (by omega), getD_replicate_zero]
    · rw [inv_dp, if_pos h, invDpLoop_getD_lt _ 2 _ 0 (by omega),
        getD_set_ne (by omega), getD_replicate_zero]
  · intro h
    have h1n : 1 < (List.replicate n (0:Int)).length := by
      rw [List.length_replicate]; omega
    rw [inv_dp, if_pos h, invDpLoop_getD_lt _ 2 _ 1 (by omega),
      getD_set_self h1n]

/-- C9 witness: `inv_dp 1 = [0]`; entry `0` of `inv_dp 4` is `0` and entry
`1` is `1`. -/
theorem inv_dp_sentinels_witness :
    inv_dp 1 = List.replicate 1 0 ∧
    (inv_dp 4).getD 0 0 = 0 ∧ (inv_dp 4).getD 1 0 = 1 :=
  ⟨(inv_dp_sentinels 1).1 (by norm_num), (inv_dp_sentinels 4).2.1,
    (inv_dp_sentinels 4).2.2 (by norm_num)⟩

end Procon
